import Mathlib

/-!
Shallow embedding of the CareerFit matching & enrichment pipeline
(`src/ats_logic.py`): skill normalization (`normalize_skill`), the skill
set-matching algorithm (`match_skills`), and the course-recommendation
fetcher (`fetch_courses_for_skills`).

Strings are modelled as lists of Unicode code points (`Str := List ℕ`).
Python's `round` on exact values is modelled by banker's rounding on `ℚ`.
-/

namespace CareerFit

/-- A string, as its list of Unicode code points. -/
abbrev Str := List Nat

/-- Code points of a Lean string literal, used to write concrete inputs. -/
def ofStr (s : String) : Str := s.data.map Char.toNat

/-- Python whitespace (`\s`, `str.strip`) over the ASCII range:
space, tab, newline, vertical tab, form feed, carriage return. -/
def isWS (c : Nat) : Bool :=
  c == 32 || c == 9 || c == 10 || c == 11 || c == 12 || c == 13

/-- `str.lower` on one code point (ASCII range, as exercised by the pipeline). -/
def lowerChar (c : Nat) : Nat := if 65 ≤ c ∧ c ≤ 90 then c + 32 else c

/-- Python `s.strip()`: drop leading and trailing whitespace. -/
def pyStrip (l : Str) : Str := List.rdropWhile isWS (l.dropWhile isWS)

/-- `re.sub(r'\s+', ' ', l)`: each maximal run of whitespace characters becomes a
single space.  The boolean flag records whether the previous character belonged
to a whitespace run (so the run emits only one space). -/
def collapseWS : Bool → Str → Str
  | _, [] => []
  | prev, c :: cs =>
    if isWS c then
      if prev then collapseWS true cs else 32 :: collapseWS true cs
    else c :: collapseWS false cs

/-- `normalize_skill(s) = re.sub(r'\s+', ' ', s.strip().lower())`
(src/ats_logic.py line 250). -/
def normalize_skill (s : Str) : Str := collapseWS false ((pyStrip s).map lowerChar)

/-- Python `round` to the nearest integer, ties to even (banker's rounding),
modelled on exact rationals. -/
def pyRound (q : ℚ) : ℤ :=
  let f := ⌊q⌋
  if q - f < 1 / 2 then f
  else if (1 : ℚ) / 2 < q - f then f + 1
  else if f % 2 = 0 then f else f + 1

/-- Python `round(x, 1)`. -/
def pyRound1 (q : ℚ) : ℚ := (pyRound (q * 10) : ℚ) / 10

/-- The `'null'` sentinel discarded by `match_skills`. -/
def nullStr : Str := ofStr "null"

/-- `res_norm = {normalize_skill(s) for s in resume_skills}` followed by
`res_norm.discard('null')` (src/ats_logic.py lines 255, 259). -/
def res_norm (resume_skills : List Str) : Finset Str :=
  ((resume_skills.map normalize_skill).toFinset).erase nullStr

/-- `jd_norm = {normalize_skill(s) for s in jd_skills}` followed by
`jd_norm.discard('null')` (src/ats_logic.py lines 256, 260). -/
def jd_norm (jd_skills : List Str) : Finset Str :=
  ((jd_skills.map normalize_skill).toFinset).erase nullStr

/-- `matched_norm = jd_norm & res_norm` (src/ats_logic.py line 263). -/
def matched_norm (resume_skills jd_skills : List Str) : Finset Str :=
  jd_norm jd_skills ∩ res_norm resume_skills

/-- `missing_norm = jd_norm - res_norm` (src/ats_logic.py line 264). -/
def missing_norm (resume_skills jd_skills : List Str) : Finset Str :=
  jd_norm jd_skills \ res_norm resume_skills

/-- `matched_original = [skill for skill in jd_skills if normalize_skill(skill) in
matched_norm]` (src/ats_logic.py line 267). -/
def matched_original (resume_skills jd_skills : List Str) : List Str :=
  jd_skills.filter (fun skill =>
    decide (normalize_skill skill ∈ matched_norm resume_skills jd_skills))

/-- `missing_original = [skill for skill in jd_skills if normalize_skill(skill) in
missing_norm]` (src/ats_logic.py line 268). -/
def missing_original (resume_skills jd_skills : List Str) : List Str :=
  jd_skills.filter (fun skill =>
    decide (normalize_skill skill ∈ missing_norm resume_skills jd_skills))

/-- Python string comparison `a <= b` on code points: lexicographic, with a
proper initial segment preceding any extension. -/
def strLeb : Str → Str → Bool
  | [], _ => true
  | _ :: _, [] => false
  | a :: as, b :: bs => a < b || (a == b && strLeb as bs)

/-- The `≤` relation Python's `sorted` uses on strings. -/
def strLe (a b : Str) : Prop := strLeb a b = true

instance : DecidableRel strLe :=
  fun a b => inferInstanceAs (Decidable (strLeb a b = true))

/-- The result dictionary of `match_skills` (src/ats_logic.py lines 274-280). -/
structure MatchResult where
  score_percentage : ℚ
  matched_skills : List Str
  missing_skills : List Str
  total_skills_count : Nat
  matched_count : Nat
deriving DecidableEq

/-- `match_skills(resume_skills, jd_skills)` (src/ats_logic.py lines 253-280):
normalized sets with the `'null'` sentinel discarded, intersection/difference,
expansion back to original-cased requirement strings, percentage score with a
zero-denominator guard, and alphabetically sorted output lists. -/
def match_skills (resume_skills jd_skills : List Str) : MatchResult :=
  let total := (jd_norm jd_skills).card
  let match_count := (matched_norm resume_skills jd_skills).card
  let percent : ℚ :=
    if 0 < total then pyRound1 ((match_count : ℚ) / (total : ℚ) * 100) else 0
  { score_percentage := percent
    matched_skills := List.insertionSort strLe (matched_original resume_skills jd_skills)
    missing_skills := List.insertionSort strLe (missing_original resume_skills jd_skills)
    total_skills_count := total
    matched_count := match_count }

/-! ### Course scraping (src/ats_logic.py lines 286-342) -/

/-- A course recommendation dictionary `{"title": ..., "link": ...}`. -/
structure Course where
  title : Str
  link : Str
deriving DecidableEq

/-- Python `s.startswith(pat)` on code points. -/
def startsWithStr : Str → Str → Bool
  | _, [] => true
  | [], _ :: _ => false
  | a :: as, b :: bs => a == b && startsWithStr as bs

/-- Python `pat in s` (substring test) on code points. -/
def containsStr : Str → Str → Bool
  | [], pat => pat.isEmpty
  | l@(_ :: rest), pat => startsWithStr l pat || containsStr rest pat

/-- Value of one hexadecimal digit code point, `none` for a non-digit. -/
def hexVal (c : Nat) : Option Nat :=
  if 48 ≤ c ∧ c ≤ 57 then some (c - 48)
  else if 65 ≤ c ∧ c ≤ 70 then some (c - 55)
  else if 97 ≤ c ∧ c ≤ 102 then some (c - 87)
  else none

/-- Percent-decoding: `%XX` becomes the escaped byte (modelled over the ASCII
range: each decoded byte stands as one code point); a malformed escape keeps
the literal `%`, as `urllib.parse.unquote` does. -/
def pctDecode : Str → Str
  | 37 :: a :: b :: rest =>
    match hexVal a, hexVal b with
    | some x, some y => (16 * x + y) :: pctDecode rest
    | _, _ => 37 :: pctDecode (a :: b :: rest)
  | c :: rest => c :: pctDecode rest
  | [] => []

/-- `urllib.parse.unquote_plus`: `+` becomes a space, then percent-decode. -/
def unquote_plus (s : Str) : Str :=
  pctDecode (s.map (fun c => if c == 43 then 32 else c))

/-- The part of the list before the first occurrence of `sep` (the whole list
when `sep` does not occur). -/
def takeBeforeChar (sep : Nat) : Str → Str
  | [] => []
  | c :: rest => if c == sep then [] else c :: takeBeforeChar sep rest

/-- The part of the list after the first occurrence of `sep` (empty when `sep`
does not occur). -/
def dropThroughChar (sep : Nat) : Str → Str
  | [] => []
  | c :: rest => if c == sep then rest else dropThroughChar sep rest

/-- Python `s.split(sep)` for a one-character separator. -/
def splitOnChar (sep : Nat) : Str → List Str
  | [] => [[]]
  | c :: rest =>
    if c == sep then [] :: splitOnChar sep rest
    else
      match splitOnChar sep rest with
      | [] => [[c]]
      | r :: rs => (c :: r) :: rs

/-- `urllib.parse.parse_qs(query).get(name, [""])[0]`: split the query string
on `&`, split each field once on `=`, `unquote_plus` names and values, drop
blank values (`keep_blank_values=False` default), and return the first value
bound to `name` — the empty string when there is none. -/
def parse_qs_first (query : Str) (name : Str) : Str :=
  let fields := splitOnChar 38 query
  let pairs := fields.filterMap (fun f =>
    if containsStr f [61] then
      let n := unquote_plus (takeBeforeChar 61 f)
      let v := unquote_plus (dropThroughChar 61 f)
      if v.isEmpty then none else some (n, v)
    else none)
  match pairs.find? (fun p => p.1 == name) with
  | some p => p.2
  | none => []

/-- The redirect unwrapping applied to a DuckDuckGo result `href`
(src/ats_logic.py lines 317-319): when the link contains `uddg=`, the real
destination is the `uddg` query parameter.  `urlsplit` takes the query between
the first `?` and the first `#`, the fragment being split off first. -/
def unwrapDDGLink (link : Str) : Str :=
  if containsStr link (ofStr "uddg=") then
    parse_qs_first (dropThroughChar 63 (takeBeforeChar 35 link)) (ofStr "uddg")
  else link

/-- The two scraping providers, abstracted: for a given skill, `none` models a
failed request (`_safe_request` returned `None`, src/ats_logic.py lines
291-296), a non-200 status, or a parse failure inside the surrounding `try`;
`some anchors` gives the `(title, href)` pairs selected by the provider's CSS
selector (`a.result__a`, resp. the Coursera search-card anchor), in page
order. -/
structure ProviderEnv where
  ddg : Str → Option (List (Str × Str))
  coursera : Str → Option (List (Str × Str))

/-- The DuckDuckGo part of the per-skill loop body of `fetch_courses_for_skills`
(src/ats_logic.py lines 309-323): on a successful response, keep at most the
first 2 selected anchors, unwrap `uddg=` redirect links, and keep only entries
whose link starts with `http`.  A failed request, non-200 status, or parse
failure contributes no entries. -/
def ddgRecs (env : ProviderEnv) (skill : Str) : List Course :=
  match env.ddg skill with
  | none => []
  | some anchors =>
    ((anchors.take 2).map (fun a => (a.1, unwrapDDGLink a.2))).filterMap
      (fun a => if startsWithStr a.2 (ofStr "http") then some ⟨a.1, a.2⟩ else none)

/-- Whether the Coursera backup is consulted for this skill: exactly when the
DuckDuckGo scrape collected fewer than 2 recommendations (src/ats_logic.py
line 326). -/
def fallbackQueried (env : ProviderEnv) (skill : Str) : Bool :=
  decide ((ddgRecs env skill).length < 2)

/-- The Coursera backup part of the loop body (src/ats_logic.py lines
326-337): consulted only when fewer than 2 recommendations were collected; on
a successful response it keeps at most 1 selected anchor, its href prefixed
with the site root.  Any failure contributes no entries. -/
def courseraRecs (env : ProviderEnv) (skill : Str) : List Course :=
  if (ddgRecs env skill).length < 2 then
    match env.coursera skill with
    | none => []
    | some anchors =>
      (anchors.take 1).map (fun a => ⟨a.1, ofStr "https://www.coursera.org" ++ a.2⟩)
  else []

/-- `skill_recs` as stored into the result dictionary: the DuckDuckGo entries
followed by the Coursera entries. -/
def skillRecs (env : ProviderEnv) (skill : Str) : List Course :=
  ddgRecs env skill ++ courseraRecs env skill

/-- Insertion into a Python `dict`, modelled as an insertion-ordered
association list: an existing key is overwritten in place, a new key is
appended. -/
def dictInsert (m : List (Str × List Course)) (k : Str) (v : List Course) :
    List (Str × List Course) :=
  if m.any (fun p => p.1 == k) then
    m.map (fun p => if p.1 == k then (k, v) else p)
  else m ++ [(k, v)]

/-- Python `dict` lookup on the association-list model. -/
def dictGet (m : List (Str × List Course)) (k : Str) : Option (List Course) :=
  (m.find? (fun p => p.1 == k)).map (fun p => p.2)

/-- `fetch_courses_for_skills(skills)` (src/ats_logic.py lines 298-342) over
abstracted providers `env`: processes only `skills[:3]` and stores each
processed skill's collected recommendations in the result dictionary.  The
`time.sleep(1)` politeness delay has no effect on the returned value and is
not modelled. -/
def fetch_courses_for_skills (env : ProviderEnv) (skills : List Str) :
    List (Str × List Course) :=
  (skills.take 3).foldl
    (fun recommendations skill => dictInsert recommendations skill (skillRecs env skill))
    []

/-! ### Auxiliary predicates and concrete inputs used by the verification -/

/-- Whether a string starts with a whitespace character. -/
def headWS : Str → Bool
  | [] => false
  | c :: _ => isWS c

/-- Whether a string ends with a whitespace character. -/
def endsWS : Str → Bool
  | [] => false
  | [c] => isWS c
  | _ :: c :: cs => endsWS (c :: cs)

/-- Whether a string has no two adjacent whitespace characters. -/
def noAdjWS : Str → Bool
  | a :: b :: rest => (!(isWS a && isWS b)) && noAdjWS (b :: rest)
  | _ => true

/-- Resume skills of the spec's score-formula example. -/
def exResume : List Str := [ofStr "Python", ofStr "SQL"]

/-- Required skills of the spec's score-formula example. -/
def exJD : List Str := [ofStr "Python", ofStr "SQL", ofStr "Go"]

/-- A concrete provider environment for witnesses: DuckDuckGo yields two
anchors (one `uddg=` redirect, one direct link), Coursera yields one. -/
def envW : ProviderEnv where
  ddg := fun _ =>
    some [(ofStr "T1", ofStr "//duckduckgo.com/l/?uddg=https%3A%2F%2Fa.com%2Fc"),
          (ofStr "T2", ofStr "http://b.com/x")]
  coursera := fun _ => some [(ofStr "C1", ofStr "/learn/py")]

/-- A provider environment in which every outbound call fails. -/
def envFail : ProviderEnv where
  ddg := fun _ => none
  coursera := fun _ => none

/-- Five distinct missing skills, for the cap-enforcement witness. -/
def fiveSkills : List Str :=
  [ofStr "Go", ofStr "Rust", ofStr "SQL", ofStr "AWS", ofStr "C"]

/-! ### Properties of the normalizer -/

theorem lowerChar_idem (c : Nat) : lowerChar (lowerChar c) = lowerChar c := by
  unfold lowerChar
  split_ifs <;> omega

theorem isWS_lowerChar (c : Nat) : isWS (lowerChar c) = isWS c := by
  unfold lowerChar
  split_ifs with h
  · rw [Bool.eq_iff_iff]
    simp only [isWS, Bool.or_eq_true, beq_iff_eq]
    omega
  · rfl

theorem headWS_map_lowerChar (l : Str) : headWS (l.map lowerChar) = headWS l := by
  cases l with
  | nil => rfl
  | cons c cs => simp [headWS, isWS_lowerChar]

theorem endsWS_cons_cons (a b : Nat) (l : Str) : endsWS (a :: b :: l) = endsWS (b :: l) := rfl

theorem endsWS_map_lowerChar (l : Str) : endsWS (l.map lowerChar) = endsWS l := by
  induction l with
  | nil => rfl
  | cons c cs ih =>
    cases cs with
    | nil => simp [endsWS, isWS_lowerChar]
    | cons d ds =>
      simp only [List.map_cons] at ih ⊢
      rw [endsWS_cons_cons, endsWS_cons_cons, ih]

theorem headWS_dropWhile (l : Str) : headWS (l.dropWhile isWS) = false := by
  induction l with
  | nil => rfl
  | cons c cs ih =>
    rw [List.dropWhile_cons]
    split
    · exact ih
    · next h => simp only [headWS]; simpa using h

theorem headWS_append (l₁ l₂ : Str) (h : l₁ ≠ []) : headWS (l₁ ++ l₂) = headWS l₁ := by
  cases l₁ with
  | nil => exact absurd rfl h
  | cons c cs => rfl

theorem headWS_rdropWhile (l : Str) (h : headWS l = false) :
    headWS (List.rdropWhile isWS l) = false := by
  induction l using List.reverseRecOn with
  | nil => simp [headWS]
  | append_singleton ys y ih =>
    rw [List.rdropWhile_concat]
    split
    · rcases eq_or_ne ys [] with hys | hys
      · subst hys; simp [headWS]
      · exact ih (by rwa [headWS_append ys [y] hys] at h)
    · exact h

theorem endsWS_eq_isWS_getLast : ∀ (l : Str) (hl : l ≠ []), endsWS l = isWS (l.getLast hl)
  | [], hl => absurd rfl hl
  | [_], _ => rfl
  | a :: b :: l, _ => by
    rw [endsWS_cons_cons, List.getLast_cons (List.cons_ne_nil b l)]
    exact endsWS_eq_isWS_getLast (b :: l) (List.cons_ne_nil b l)

theorem headWS_pyStrip (s : Str) : headWS (pyStrip s) = false :=
  headWS_rdropWhile _ (headWS_dropWhile s)

theorem endsWS_pyStrip (s : Str) : endsWS (pyStrip s) = false := by
  unfold pyStrip
  rcases eq_or_ne (List.rdropWhile isWS (s.dropWhile isWS)) [] with h | h
  · rw [h]; rfl
  · rw [endsWS_eq_isWS_getLast _ h]
    have h2 := List.rdropWhile_last_not isWS (s.dropWhile isWS) h
    simpa using h2

theorem mem_collapseWS (l : Str) (b : Bool) (c : Nat) (h : c ∈ collapseWS b l) :
    c = 32 ∨ (c ∈ l ∧ isWS c = false) := by
  induction l generalizing b with
  | nil => simp [collapseWS] at h
  | cons d ds ih =>
    rw [collapseWS] at h
    by_cases hd : isWS d
    · rw [if_pos hd] at h
      cases b with
      | true =>
        simp only [if_true] at h
        rcases ih true h with h32 | ⟨hm, hws⟩
        · exact Or.inl h32
        · exact Or.inr ⟨List.mem_cons_of_mem d hm, hws⟩
      | false =>
        simp only [Bool.false_eq_true, if_false] at h
        rcases List.mem_cons.mp h with h32 | h'
        · exact Or.inl h32
        · rcases ih true h' with h32 | ⟨hm, hws⟩
          · exact Or.inl h32
          · exact Or.inr ⟨List.mem_cons_of_mem d hm, hws⟩
    · rw [if_neg hd] at h
      rcases List.mem_cons.mp h with hc | h'
      · rw [hc]
        exact Or.inr ⟨List.mem_cons_self d ds, by simpa using hd⟩
      · rcases ih false h' with h32 | ⟨hm, hws⟩
        · exact Or.inl h32
        · exact Or.inr ⟨List.mem_cons_of_mem d hm, hws⟩

theorem headWS_collapseWS_false (l : Str) : headWS (collapseWS false l) = headWS l := by
  cases l with
  | nil => rfl
  | cons c cs =>
    rw [collapseWS]
    by_cases h : isWS c
    · rw [if_pos h]
      simp only [Bool.false_eq_true, if_false, headWS]
      rw [h]
      rfl
    · rw [if_neg h]
      rfl

theorem headWS_collapseWS_true (l : Str) : headWS (collapseWS true l) = false := by
  induction l with
  | nil => rfl
  | cons c cs ih =>
    rw [collapseWS]
    by_cases h : isWS c
    · rw [if_pos h]
      simpa using ih
    · rw [if_neg h]
      simp only [headWS]
      simpa using h

theorem collapseWS_true_nil (l : Str) (h : collapseWS true l = []) :
    l = [] ∨ endsWS l = true := by
  induction l with
  | nil => exact Or.inl rfl
  | cons d ds ih =>
    rw [collapseWS] at h
    by_cases hd : isWS d
    · rw [if_pos hd, if_pos rfl] at h
      rcases ih h with rfl | he
      · exact Or.inr (by simpa [endsWS] using hd)
      · cases ds with
        | nil => simp [endsWS] at he
        | cons e es => exact Or.inr (by rw [endsWS_cons_cons]; exact he)
    · rw [if_neg hd] at h
      exact absurd h (List.cons_ne_nil _ _)

theorem endsWS_collapseWS (l : Str) (b : Bool) (h : endsWS (collapseWS b l) = true) :
    endsWS l = true := by
  induction l generalizing b with
  | nil => simp [collapseWS, endsWS] at h
  | cons d ds ih =>
    rw [collapseWS] at h
    by_cases hd : isWS d
    · rw [if_pos hd] at h
      cases b with
      | true =>
        rw [if_pos rfl] at h
        have hds := ih true h
        cases ds with
        | nil => simp [endsWS] at hds
        | cons e es => rw [endsWS_cons_cons]; exact hds
      | false =>
        rw [if_neg (by simp)] at h
        rcases eq_or_ne (collapseWS true ds) [] with hnil | hne
        · rcases collapseWS_true_nil ds hnil with rfl | he
          · simpa [endsWS] using hd
          · cases ds with
            | nil => simp [endsWS] at he
            | cons e es => rw [endsWS_cons_cons]; exact he
        · obtain ⟨x, xs, hx⟩ := List.exists_cons_of_ne_nil hne
          rw [hx, endsWS_cons_cons, ← hx] at h
          have hds := ih true h
          cases ds with
          | nil => simp [collapseWS] at hne
          | cons e es => rw [endsWS_cons_cons]; exact hds
    · rw [if_neg hd] at h
      rcases eq_or_ne (collapseWS false ds) [] with hnil | hne
      · rw [hnil] at h
        simp only [endsWS] at h
        exact absurd h hd
      · obtain ⟨x, xs, hx⟩ := List.exists_cons_of_ne_nil hne
        rw [hx, endsWS_cons_cons, ← hx] at h
        have hds := ih false h
        cases ds with
        | nil => simp [collapseWS] at hne
        | cons e es => rw [endsWS_cons_cons]; exact hds

theorem noAdjWS_tail (a : Nat) (l : Str) (h : noAdjWS (a :: l) = true) : noAdjWS l = true := by
  cases l with
  | nil => rfl
  | cons b bs =>
    rw [noAdjWS, Bool.and_eq_true] at h
    exact h.2

theorem noAdjWS_cons_of_headWS (c : Nat) (l : Str) (hl : headWS l = false)
    (h : noAdjWS l = true) : noAdjWS (c :: l) = true := by
  cases l with
  | nil => rfl
  | cons b bs =>
    have hb : isWS b = false := hl
    rw [noAdjWS]
    simp [hb, h]

theorem noAdjWS_cons_of_not (c : Nat) (l : Str) (hc : isWS c = false)
    (h : noAdjWS l = true) : noAdjWS (c :: l) = true := by
  cases l with
  | nil => rfl
  | cons b bs =>
    rw [noAdjWS]
    simp [hc, h]

theorem noAdjWS_collapseWS (l : Str) (b : Bool) : noAdjWS (collapseWS b l) = true := by
  induction l generalizing b with
  | nil => rfl
  | cons d ds ih =>
    rw [collapseWS]
    by_cases hd : isWS d
    · rw [if_pos hd]
      cases b with
      | true => rw [if_pos rfl]; exact ih true
      | false =>
        rw [if_neg (by simp)]
        exact noAdjWS_cons_of_headWS 32 _ (headWS_collapseWS_true ds) (ih true)
    · rw [if_neg hd]
      exact noAdjWS_cons_of_not d _ (by simpa using hd) (ih false)

theorem collapseWS_fixed_aux (l : Str) (h32 : ∀ c ∈ l, isWS c = true → c = 32)
    (hadj : noAdjWS l = true) :
    collapseWS false l = l ∧ (headWS l = false → collapseWS true l = l) := by
  induction l with
  | nil => exact ⟨rfl, fun _ => rfl⟩
  | cons d ds ih =>
    have ihds := ih (fun c hc hws => h32 c (List.mem_cons_of_mem d hc) hws)
      (noAdjWS_tail d ds hadj)
    by_cases hd : isWS d
    · have hd32 : d = 32 := h32 d (List.mem_cons_self d ds) hd
      have hhds : headWS ds = false := by
        cases ds with
        | nil => rfl
        | cons e es =>
          rw [noAdjWS, Bool.and_eq_true] at hadj
          have h1 := hadj.1
          simp only [hd, Bool.true_and, Bool.not_eq_eq_eq_not, Bool.not_true] at h1
          exact h1
      constructor
      · rw [collapseWS, if_pos hd, if_neg (by simp), ihds.2 hhds, hd32]
      · intro hh
        have : isWS d = false := hh
        rw [this] at hd
        exact absurd hd (by simp)
    · constructor
      · rw [collapseWS, if_neg hd, ihds.1]
      · intro _
        rw [collapseWS, if_neg hd, ihds.1]

theorem normalize_skill_fixed_parts (s : Str) :
    pyStrip (normalize_skill s) = normalize_skill s ∧
      (normalize_skill s).map lowerChar = normalize_skill s ∧
      collapseWS false (normalize_skill s) = normalize_skill s := by
  have hhead : headWS (normalize_skill s) = false := by
    rw [normalize_skill, headWS_collapseWS_false, headWS_map_lowerChar]
    exact headWS_pyStrip s
  have hends : endsWS (normalize_skill s) = false := by
    rw [normalize_skill]
    by_contra hcon
    have h1 : endsWS (collapseWS false ((pyStrip s).map lowerChar)) = true := by
      simpa using hcon
    have h2 := endsWS_collapseWS _ false h1
    rw [endsWS_map_lowerChar, endsWS_pyStrip] at h2
    exact Bool.false_ne_true h2
  refine ⟨?_, ?_, ?_⟩
  · rw [pyStrip]
    have h1 : (normalize_skill s).dropWhile isWS = normalize_skill s := by
      cases hn : normalize_skill s with
      | nil => rfl
      | cons c cs =>
        have hc : isWS c = false := by rw [hn] at hhead; exact hhead
        rw [List.dropWhile_cons, if_neg (by simp [hc])]
    rw [h1, List.rdropWhile_eq_self_iff]
    intro hl
    rw [← endsWS_eq_isWS_getLast _ hl]
    simp [hends]
  · have hmem : ∀ c ∈ normalize_skill s, lowerChar c = c := by
      intro c hc
      rw [normalize_skill] at hc
      rcases mem_collapseWS _ false c hc with rfl | ⟨hm, _⟩
      · norm_num [lowerChar]
      · obtain ⟨c₀, _, rfl⟩ := List.mem_map.mp hm
        exact lowerChar_idem c₀
    calc (normalize_skill s).map lowerChar
        = (normalize_skill s).map id := List.map_congr_left hmem
      _ = normalize_skill s := List.map_id _
  · have h32 : ∀ c ∈ normalize_skill s, isWS c = true → c = 32 := by
      intro c hc hws
      rw [normalize_skill] at hc
      rcases mem_collapseWS _ false c hc with rfl | ⟨_, hws'⟩
      · rfl
      · rw [hws] at hws'
        exact absurd hws' (by simp)
    have hadj : noAdjWS (normalize_skill s) = true := by
      rw [normalize_skill]
      exact noAdjWS_collapseWS _ false
    exact (collapseWS_fixed_aux (normalize_skill s) h32 hadj).1

/-! ### The string order used by `sorted` -/

theorem strLeb_total (a b : Str) : strLeb a b = true ∨ strLeb b a = true := by
  induction a generalizing b with
  | nil => exact Or.inl rfl
  | cons x xs ih =>
    cases b with
    | nil => exact Or.inr rfl
    | cons y ys =>
      rcases Nat.lt_trichotomy x y with h | h | h
      · left; rw [strLeb]; simp [h]
      · subst h
        rcases ih ys with h1 | h1
        · left; rw [strLeb]; simp [h1]
        · right; rw [strLeb]; simp [h1]
      · right; rw [strLeb]; simp [h]

theorem strLeb_trans (a b c : Str) (hab : strLeb a b = true) (hbc : strLeb b c = true) :
    strLeb a c = true := by
  induction a generalizing b c with
  | nil => rfl
  | cons x xs ih =>
    cases b with
    | nil => exact absurd hab (by simp [strLeb])
    | cons y ys =>
      cases c with
      | nil => exact absurd hbc (by simp [strLeb])
      | cons z zs =>
        rw [strLeb] at hab hbc ⊢
        simp only [Bool.or_eq_true, Bool.and_eq_true, beq_iff_eq, decide_eq_true_eq]
          at hab hbc ⊢
        rcases hab with h1 | ⟨rfl, h1⟩
        · rcases hbc with h2 | ⟨rfl, h2⟩
          · exact Or.inl (Nat.lt_trans h1 h2)
          · exact Or.inl h1
        · rcases hbc with h2 | ⟨rfl, h2⟩
          · exact Or.inl h2
          · exact Or.inr ⟨rfl, ih ys zs h1 h2⟩

instance : IsTotal Str strLe := ⟨fun a b => strLeb_total a b⟩

instance : IsTrans Str strLe := ⟨fun a b c => strLeb_trans a b c⟩

/-! ### The dictionary model used by the recommendation fetcher -/

theorem any_key_iff (m : List (Str × List Course)) (k : Str) :
    m.any (fun p => p.1 == k) = true ↔ k ∈ m.map Prod.fst := by
  simp only [List.any_eq_true, beq_iff_eq, List.mem_map]

theorem dictInsert_keys_of_mem (m : List (Str × List Course)) (k : Str) (v : List Course)
    (h : m.any (fun p => p.1 == k) = true) :
    (dictInsert m k v).map Prod.fst = m.map Prod.fst := by
  rw [dictInsert, if_pos h, List.map_map]
  apply List.map_congr_left
  intro p _
  simp only [Function.comp_apply]
  by_cases hp : (p.1 == k) = true
  · rw [if_pos hp]
    exact (beq_iff_eq.mp hp).symm
  · rw [if_neg hp]

theorem dictInsert_keys_of_not_mem (m : List (Str × List Course)) (k : Str) (v : List Course)
    (h : m.any (fun p => p.1 == k) = false) :
    (dictInsert m k v).map Prod.fst = m.map Prod.fst ++ [k] := by
  rw [dictInsert, if_neg (by simp [h]), List.map_append]
  rfl

theorem find?_overwrite (m : List (Str × List Course)) (k : Str) (v : List Course)
    (h : m.any (fun p => p.1 == k) = true) :
    (m.map (fun p => if p.1 == k then (k, v) else p)).find? (fun p => p.1 == k)
      = some (k, v) := by
  induction m with
  | nil => simp at h
  | cons p ps ih =>
    rw [List.map_cons]
    by_cases hp : (p.1 == k) = true
    · rw [if_pos hp]
      exact @List.find?_cons_of_pos (Str × List Course) (fun q => q.1 == k) (k, v) _ (by simp)
    · rw [if_neg hp,
        @List.find?_cons_of_neg (Str × List Course) (fun q => q.1 == k) p _ (by simpa using hp)]
      rw [List.any_cons, Bool.or_eq_true] at h
      exact ih (h.resolve_left hp)

theorem find?_append_self (m : List (Str × List Course)) (k : Str) (v : List Course)
    (h : m.any (fun p => p.1 == k) = false) :
    (m ++ [(k, v)]).find? (fun p => p.1 == k) = some (k, v) := by
  induction m with
  | nil =>
    rw [List.nil_append]
    exact @List.find?_cons_of_pos (Str × List Course) (fun q => q.1 == k) (k, v) _ (by simp)
  | cons p ps ih =>
    rw [List.any_cons, Bool.or_eq_false_iff] at h
    rw [List.cons_append,
      @List.find?_cons_of_neg (Str × List Course) (fun q => q.1 == k) p _ (by simp [h.1])]
    exact ih h.2

theorem find?_overwrite_ne (m : List (Str × List Course)) (k : Str) (v : List Course)
    (k' : Str) (hne : k' ≠ k) :
    (m.map (fun p => if p.1 == k then (k, v) else p)).find? (fun p => p.1 == k')
      = m.find? (fun p => p.1 == k') := by
  induction m with
  | nil => rfl
  | cons p ps ih =>
    rw [List.map_cons]
    by_cases hp : (p.1 == k) = true
    · have hkk : ¬ ((k : Str) = k') := fun hh => hne hh.symm
      have hpk : ¬ ((p.1 == k') = true) := by
        simp only [beq_iff_eq]
        rw [beq_iff_eq.mp hp]
        exact hkk
      rw [if_pos hp,
        @List.find?_cons_of_neg (Str × List Course) (fun q => q.1 == k') (k, v) _
          (by simp [hkk]),
        @List.find?_cons_of_neg (Str × List Course) (fun q => q.1 == k') p _ hpk]
      exact ih
    · rw [if_neg hp]
      by_cases hp' : (p.1 == k') = true
      · rw [@List.find?_cons_of_pos (Str × List Course) (fun q => q.1 == k') p _ hp',
          @List.find?_cons_of_pos (Str × List Course) (fun q => q.1 == k') p _ hp']
      · rw [@List.find?_cons_of_neg (Str × List Course) (fun q => q.1 == k') p _ hp',
          @List.find?_cons_of_neg (Str × List Course) (fun q => q.1 == k') p _ hp']
        exact ih

theorem find?_append_ne (m : List (Str × List Course)) (k : Str) (v : List Course)
    (k' : Str) (hne : k' ≠ k) :
    (m ++ [(k, v)]).find? (fun p => p.1 == k') = m.find? (fun p => p.1 == k') := by
  induction m with
  | nil =>
    rw [List.nil_append,
      @List.find?_cons_of_neg (Str × List Course) (fun q => q.1 == k') (k, v) _
        (by simp; exact fun hh => hne hh.symm)]
  | cons p ps ih =>
    rw [List.cons_append]
    by_cases hp' : (p.1 == k') = true
    · rw [@List.find?_cons_of_pos (Str × List Course) (fun q => q.1 == k') p _ hp',
        @List.find?_cons_of_pos (Str × List Course) (fun q => q.1 == k') p _ hp']
    · rw [@List.find?_cons_of_neg (Str × List Course) (fun q => q.1 == k') p _ hp',
        @List.find?_cons_of_neg (Str × List Course) (fun q => q.1 == k') p _ hp']
      exact ih

theorem dictGet_dictInsert_self (m : List (Str × List Course)) (k : Str) (v : List Course) :
    dictGet (dictInsert m k v) k = some v := by
  rw [dictInsert]
  by_cases h : m.any (fun p => p.1 == k) = true
  · rw [if_pos h, dictGet, find?_overwrite m k v h]
    rfl
  · rw [if_neg h, dictGet,
      find?_append_self m k v (by simp only [Bool.not_eq_true] at h; exact h)]
    rfl

theorem dictGet_dictInsert_ne (m : List (Str × List Course)) (k : Str) (v : List Course)
    (k' : Str) (hne : k' ≠ k) :
    dictGet (dictInsert m k v) k' = dictGet m k' := by
  rw [dictInsert]
  by_cases h : m.any (fun p => p.1 == k) = true
  · rw [if_pos h, dictGet, find?_overwrite_ne m k v k' hne, dictGet]
  · rw [if_neg h, dictGet, find?_append_ne m k v k' hne, dictGet]

theorem fetch_foldl_keys_mem (env : ProviderEnv) (l : List Str)
    (m : List (Str × List Course)) (k : Str) :
    (k ∈ (l.foldl (fun recs skill => dictInsert recs skill (skillRecs env skill)) m).map
        Prod.fst)
      ↔ k ∈ m.map Prod.fst ∨ k ∈ l := by
  induction l generalizing m with
  | nil => simp
  | cons a as ih =>
    rw [List.foldl_cons, ih]
    have hkeys : k ∈ (dictInsert m a (skillRecs env a)).map Prod.fst ↔
        k ∈ m.map Prod.fst ∨ k = a := by
      by_cases h : m.any (fun p => p.1 == a) = true
      · rw [dictInsert_keys_of_mem _ _ _ h]
        constructor
        · exact Or.inl
        · rintro (h1 | rfl)
          · exact h1
          · exact (any_key_iff m k).mp h
      · rw [dictInsert_keys_of_not_mem _ _ _ (by simp only [Bool.not_eq_true] at h; exact h)]
        simp
    rw [hkeys]
    simp only [List.mem_cons]
    tauto

theorem fetch_foldl_keys_nodup (env : ProviderEnv) (l : List Str)
    (m : List (Str × List Course)) (hm : (m.map Prod.fst).Nodup) :
    ((l.foldl (fun recs skill => dictInsert recs skill (skillRecs env skill)) m).map
      Prod.fst).Nodup := by
  induction l generalizing m with
  | nil => exact hm
  | cons a as ih =>
    rw [List.foldl_cons]
    apply ih
    by_cases h : m.any (fun p => p.1 == a) = true
    · rw [dictInsert_keys_of_mem _ _ _ h]
      exact hm
    · rw [dictInsert_keys_of_not_mem _ _ _ (by simp only [Bool.not_eq_true] at h; exact h)]
      have ha : a ∉ m.map Prod.fst := fun hmem => h ((any_key_iff m a).mpr hmem)
      rw [List.nodup_append]
      refine ⟨hm, List.nodup_singleton a, ?_⟩
      intro x hx hxa
      rw [List.mem_singleton] at hxa
      subst hxa
      exact ha hx

theorem fetch_foldl_keys_exact (env : ProviderEnv) (l : List Str)
    (m : List (Str × List Course)) (hl : l.Nodup) (hd : ∀ x ∈ l, x ∉ m.map Prod.fst) :
    (l.foldl (fun recs skill => dictInsert recs skill (skillRecs env skill)) m).map Prod.fst
      = m.map Prod.fst ++ l := by
  induction l generalizing m with
  | nil => simp
  | cons a as ih =>
    rw [List.foldl_cons]
    have hnot : m.any (fun p => p.1 == a) = false := by
      rw [← Bool.not_eq_true]
      exact fun hmem => hd a (List.mem_cons_self a as) ((any_key_iff m a).mp hmem)
    have hdisj : ∀ x ∈ as, x ∉ (dictInsert m a (skillRecs env a)).map Prod.fst := by
      intro x hx hmem
      rw [dictInsert_keys_of_not_mem _ _ _ hnot] at hmem
      rcases List.mem_append.mp hmem with h1 | h1
      · exact hd x (List.mem_cons_of_mem a hx) h1
      · rw [List.mem_singleton] at h1
        subst h1
        exact (List.nodup_cons.mp hl).1 hx
    rw [ih _ hl.of_cons hdisj, dictInsert_keys_of_not_mem _ _ _ hnot, List.append_assoc,
      List.singleton_append]

theorem fetch_foldl_get (env : ProviderEnv) (l : List Str) (m : List (Str × List Course))
    (k : Str) :
    dictGet (l.foldl (fun recs skill => dictInsert recs skill (skillRecs env skill)) m) k
      = if k ∈ l then some (skillRecs env k) else dictGet m k := by
  induction l generalizing m with
  | nil => simp
  | cons a as ih =>
    rw [List.foldl_cons, ih]
    by_cases hk : k ∈ as
    · rw [if_pos hk, if_pos (List.mem_cons_of_mem a hk)]
    · rw [if_neg hk]
      by_cases hka : k = a
      · subst hka
        rw [dictGet_dictInsert_self, if_pos (List.mem_cons_self k as)]
      · rw [dictGet_dictInsert_ne m a (skillRecs env a) k hka, if_neg (by simp [hka, hk])]

theorem ddgRecs_length_le (env : ProviderEnv) (skill : Str) :
    (ddgRecs env skill).length ≤ 2 := by
  rw [ddgRecs]
  cases env.ddg skill with
  | none => simp
  | some anchors =>
    refine le_trans (List.length_filterMap_le _ _) ?_
    simp [List.length_take]

theorem courseraRecs_length_le (env : ProviderEnv) (skill : Str) :
    (courseraRecs env skill).length ≤ 1 := by
  rw [courseraRecs]
  split
  · cases env.coursera skill with
    | none => simp
    | some anchors =>
      simp [List.length_take]
  · simp

theorem fallbackQueried_iff (env : ProviderEnv) (skill : Str) :
    fallbackQueried env skill = true ↔ (ddgRecs env skill).length < 2 := by
  rw [fallbackQueried]
  exact decide_eq_true_iff

theorem courseraRecs_eq_nil_of_not_queried (env : ProviderEnv) (skill : Str)
    (h : fallbackQueried env skill = false) : courseraRecs env skill = [] := by
  rw [fallbackQueried] at h
  rw [courseraRecs, if_neg (of_decide_eq_false h)]

theorem skillRecs_eq_nil_of_fail (env : ProviderEnv) (skill : Str)
    (hd : env.ddg skill = none) (hc : env.coursera skill = none) :
    skillRecs env skill = [] := by
  have h1 : ddgRecs env skill = [] := by rw [ddgRecs, hd]
  rw [skillRecs, h1, courseraRecs, h1, if_pos (by simp), hc]
  rfl

/-! ### Properties of the matcher -/

theorem res_norm_eq_jd_norm : res_norm = jd_norm := rfl

theorem mem_jd_norm (j : List Str) (x : Str) :
    x ∈ jd_norm j ↔ x ≠ nullStr ∧ ∃ s ∈ j, normalize_skill s = x := by
  rw [jd_norm]
  simp

theorem jd_norm_filter_null (j : List Str) :
    jd_norm (j.filter (fun s => !(normalize_skill s == nullStr))) = jd_norm j := by
  ext x
  rw [mem_jd_norm, mem_jd_norm]
  constructor
  · rintro ⟨hx, s, hs, rfl⟩
    rw [List.mem_filter] at hs
    exact ⟨hx, s, hs.1, rfl⟩
  · rintro ⟨hx, s, hs, rfl⟩
    refine ⟨hx, s, ?_, rfl⟩
    rw [List.mem_filter]
    exact ⟨hs, by simpa using hx⟩

theorem ne_null_of_mem_matched_norm (r j : List Str) (x : Str)
    (h : x ∈ matched_norm r j) : x ≠ nullStr := by
  rw [matched_norm] at h
  exact ((mem_jd_norm j x).mp (Finset.mem_inter.mp h).1).1

theorem ne_null_of_mem_missing_norm (r j : List Str) (x : Str)
    (h : x ∈ missing_norm r j) : x ≠ nullStr := by
  rw [missing_norm] at h
  exact ((mem_jd_norm j x).mp (Finset.mem_sdiff.mp h).1).1

theorem match_skills_filter_null (r j : List Str) :
    match_skills (r.filter (fun s => !(normalize_skill s == nullStr)))
        (j.filter (fun s => !(normalize_skill s == nullStr)))
      = match_skills r j := by
  have hres : res_norm (r.filter (fun s => !(normalize_skill s == nullStr)))
      = res_norm r := by
    rw [res_norm_eq_jd_norm]
    exact jd_norm_filter_null r
  have hjd := jd_norm_filter_null j
  have hmat : matched_norm (r.filter (fun s => !(normalize_skill s == nullStr)))
      (j.filter (fun s => !(normalize_skill s == nullStr))) = matched_norm r j := by
    rw [matched_norm, matched_norm, hres, hjd]
  have hmiss : missing_norm (r.filter (fun s => !(normalize_skill s == nullStr)))
      (j.filter (fun s => !(normalize_skill s == nullStr))) = missing_norm r j := by
    rw [missing_norm, missing_norm, hres, hjd]
  have hmo : matched_original (r.filter (fun s => !(normalize_skill s == nullStr)))
      (j.filter (fun s => !(normalize_skill s == nullStr))) = matched_original r j := by
    rw [matched_original, matched_original, hmat, List.filter_filter]
    apply List.filter_congr
    intro s _
    by_cases hmem : normalize_skill s ∈ matched_norm r j
    · have hne := ne_null_of_mem_matched_norm r j _ hmem
      simp [hmem, hne]
    · simp [hmem]
  have hmiso : missing_original (r.filter (fun s => !(normalize_skill s == nullStr)))
      (j.filter (fun s => !(normalize_skill s == nullStr))) = missing_original r j := by
    rw [missing_original, missing_original, hmiss, List.filter_filter]
    apply List.filter_congr
    intro s _
    by_cases hmem : normalize_skill s ∈ missing_norm r j
    · have hne := ne_null_of_mem_missing_norm r j _ hmem
      simp [hmem, hne]
    · simp [hmem]
  simp only [match_skills, hjd, hmat, hmo, hmiso]

theorem res_norm_nil : res_norm [] = ∅ := by
  simp [res_norm]

theorem matched_norm_nil (j : List Str) : matched_norm [] j = ∅ := by
  rw [matched_norm, res_norm_nil, Finset.inter_empty]

theorem missing_norm_nil (j : List Str) : missing_norm [] j = jd_norm j := by
  rw [missing_norm, res_norm_nil, Finset.sdiff_empty]

theorem pyRound1_zero : pyRound1 0 = 0 := by
  norm_num [pyRound1, pyRound]

theorem match_skills_score_eq (r j : List Str) :
    (match_skills r j).score_percentage =
      if 0 < (jd_norm j).card then
        pyRound1 (((matched_norm r j).card : ℚ) / ((jd_norm j).card : ℚ) * 100)
      else 0 := rfl

theorem score_zero_of_total_zero (r j : List Str)
    (h : (match_skills r j).total_skills_count = 0) :
    (match_skills r j).score_percentage = 0 := by
  simp only [match_skills] at h ⊢
  rw [if_neg (by omega)]

theorem score_nil_resume (j : List Str) : (match_skills [] j).score_percentage = 0 := by
  rw [match_skills_score_eq, matched_norm_nil]
  simp [pyRound1_zero]

theorem matched_original_nil_resume (j : List Str) : matched_original [] j = [] := by
  simp [matched_original, matched_norm_nil]

theorem missing_original_nil_resume (j : List Str) :
    missing_original [] j = j.filter (fun s => !(normalize_skill s == nullStr)) := by
  rw [missing_original]
  apply List.filter_congr
  intro s hs
  rw [missing_norm_nil]
  by_cases hn : normalize_skill s = nullStr
  · have h1 : normalize_skill s ∉ jd_norm j := by
      rw [mem_jd_norm]
      rintro ⟨hne, _⟩
      exact hne hn
    rw [hn] at h1
    simp [h1, hn]
  · have h1 : normalize_skill s ∈ jd_norm j := by
      rw [mem_jd_norm]
      exact ⟨hn, s, hs, rfl⟩
    simp [h1, hn]

/-! ### Claim theorems -/

/-- Claim C1: for every pair of skill lists, `match_skills` returns a
`score_percentage` equal to `round(matched / total * 100, 1)` when the
normalized, null-filtered required set is non-empty and `0` when it is empty;
on the spec's example, `match(["Python","SQL"], ["Python","SQL","Go"])` yields
score `66.7`, matched `["Python","SQL"]`, missing `["Go"]`. -/
theorem match_skills_score_formula (resume_skills jd_skills : List Str) :
    ((match_skills resume_skills jd_skills).score_percentage =
      if 0 < (jd_norm jd_skills).card then
        pyRound1 (((matched_norm resume_skills jd_skills).card : ℚ)
          / ((jd_norm jd_skills).card : ℚ) * 100)
      else 0)
    ∧ (match_skills exResume exJD).score_percentage = 667 / 10
    ∧ (match_skills exResume exJD).matched_skills = [ofStr "Python", ofStr "SQL"]
    ∧ (match_skills exResume exJD).missing_skills = [ofStr "Go"] := by
  refine ⟨rfl, ?_, by decide, by decide⟩
  have hj : (jd_norm exJD).card = 3 := by decide
  have hm : (matched_norm exResume exJD).card = 2 := by decide
  simp only [match_skills, hj, hm]
  have hf : ⌊(2 : ℚ) / 3 * 100 * 10⌋ = 666 := by
    rw [Int.floor_eq_iff]
    norm_num
  norm_num [pyRound1, pyRound, hf]

/-- Claim C2: every entry whose normalized form is the `"null"` sentinel
(case-insensitively) is removed from both sets before comparison — filtering
such entries out of either input leaves the result unchanged; the required
list `["Null"]` yields `total_skills_count = 0` and score `0`; and a zero
total always forces score `0`, so the division is never reached with a zero
denominator. -/
theorem match_skills_null_sentinel (resume_skills jd_skills : List Str) :
    match_skills (resume_skills.filter (fun s => !(normalize_skill s == nullStr)))
        (jd_skills.filter (fun s => !(normalize_skill s == nullStr)))
      = match_skills resume_skills jd_skills
    ∧ (match_skills [] [ofStr "Null"]).total_skills_count = 0
    ∧ (match_skills [] [ofStr "Null"]).score_percentage = 0
    ∧ ((match_skills resume_skills jd_skills).total_skills_count = 0 →
        (match_skills resume_skills jd_skills).score_percentage = 0) :=
  ⟨match_skills_filter_null resume_skills jd_skills, by decide,
    score_zero_of_total_zero [] [ofStr "Null"] (by decide),
    score_zero_of_total_zero resume_skills jd_skills⟩

/-- Witness for C2 at the concrete required list `["Null"]`. -/
theorem match_skills_null_sentinel_witness :
    (match_skills [] [ofStr "Null"]).total_skills_count = 0 ∧
      (match_skills [] [ofStr "Null"]).score_percentage = 0 :=
  ⟨by decide, (match_skills_null_sentinel [] [ofStr "Null"]).2.2.2 (by decide)⟩

/-- Claim C3: the matched (resp. missing) list consists exactly — as a
multiset, every occurrence included — of the original-cased required entries
whose normalization lies in the matched (resp. missing) normalized set; the
normalized-key-to-original expansion is one-to-many and not deduplicated, so
two differently-cased spellings both appear. -/
theorem matched_missing_one_to_many (resume_skills jd_skills : List Str) :
    (match_skills resume_skills jd_skills).matched_skills.Perm
        (jd_skills.filter (fun s =>
          decide (normalize_skill s ∈ matched_norm resume_skills jd_skills)))
    ∧ (match_skills resume_skills jd_skills).missing_skills.Perm
        (jd_skills.filter (fun s =>
          decide (normalize_skill s ∈ missing_norm resume_skills jd_skills)))
    ∧ (match_skills [ofStr "aws"] [ofStr "AWS", ofStr "aws"]).matched_skills
        = [ofStr "AWS", ofStr "aws"] :=
  ⟨List.perm_insertionSort strLe _, List.perm_insertionSort strLe _, by decide⟩

/-- Claim C4: for every provider behaviour and skill, the search-engine
provider contributes at most 2 recommendations and the course-catalog fallback
at most 1; the fallback is consulted exactly when fewer than 2 recommendations
were collected from the primary (so 2 primary results mean the fallback is
never consulted), and an unconsulted fallback contributes nothing. -/
theorem provider_caps_and_fallback (env : ProviderEnv) (skill : Str) :
    (ddgRecs env skill).length ≤ 2
    ∧ (courseraRecs env skill).length ≤ 1
    ∧ (fallbackQueried env skill = true ↔ (ddgRecs env skill).length < 2)
    ∧ (fallbackQueried env skill = true ∨ courseraRecs env skill = []) := by
  refine ⟨ddgRecs_length_le env skill, courseraRecs_length_le env skill,
    fallbackQueried_iff env skill, ?_⟩
  cases hq : fallbackQueried env skill with
  | true => exact Or.inl rfl
  | false => exact Or.inr (courseraRecs_eq_nil_of_not_queried env skill hq)

/-- Claim C5: the fetcher processes at most the first 3 missing skills: a key
appears in the result mapping exactly when it is among the first
`min(3, length)` input entries (in original casing), keys are unique, and for
duplicate-free input the key list is exactly `skills.take 3`. -/
theorem fetch_cap_three (env : ProviderEnv) (skills : List Str) :
    (∀ k : Str,
      k ∈ (fetch_courses_for_skills env skills).map Prod.fst ↔ k ∈ skills.take 3)
    ∧ ((fetch_courses_for_skills env skills).map Prod.fst).Nodup
    ∧ ((skills.take 3).Nodup →
        (fetch_courses_for_skills env skills).map Prod.fst = skills.take 3) := by
  refine ⟨?_, ?_, ?_⟩
  · intro k
    rw [fetch_courses_for_skills, fetch_foldl_keys_mem]
    simp
  · rw [fetch_courses_for_skills]
    exact fetch_foldl_keys_nodup env _ [] (by simp)
  · intro h
    rw [fetch_courses_for_skills, fetch_foldl_keys_exact env _ [] h (by simp)]
    simp

/-- Witness for C5: given five distinct missing skills, exactly the first
three are populated. -/
theorem fetch_cap_three_witness :
    (fiveSkills.take 3).Nodup
    ∧ (fetch_courses_for_skills envW fiveSkills).map Prod.fst = fiveSkills.take 3 :=
  ⟨by decide, (fetch_cap_three envW fiveSkills).2.2 (by decide)⟩

/-- Claim C6: provider failures are swallowed, never propagated: every
processed skill is present in the returned mapping, bound to its collected
(possibly empty) recommendation list, and a skill whose provider calls all
fail is mapped to the empty list. -/
theorem fetch_graceful_degradation (env : ProviderEnv) (skills : List Str) (skill : Str)
    (h : skill ∈ skills.take 3) :
    dictGet (fetch_courses_for_skills env skills) skill = some (skillRecs env skill)
    ∧ (env.ddg skill = none → env.coursera skill = none →
        dictGet (fetch_courses_for_skills env skills) skill = some []) := by
  have hget : dictGet (fetch_courses_for_skills env skills) skill
      = some (skillRecs env skill) := by
    rw [fetch_courses_for_skills, fetch_foldl_get, if_pos h]
  refine ⟨hget, fun hd hc => ?_⟩
  rw [hget, skillRecs_eq_nil_of_fail env skill hd hc]

/-- Witness for C6: with every provider call failing, a processed skill is
mapped to the empty list. -/
theorem fetch_graceful_degradation_witness :
    ofStr "Go" ∈ fiveSkills.take 3
    ∧ dictGet (fetch_courses_for_skills envFail fiveSkills) (ofStr "Go") = some [] :=
  ⟨by decide,
    (fetch_graceful_degradation envFail fiveSkills (ofStr "Go") (by decide)).2 rfl rfl⟩

/-- Claim C7: the matched and missing lists are sorted in Python's string
order (lexicographic on code points) for every input. -/
theorem matched_missing_sorted (resume_skills jd_skills : List Str) :
    List.Sorted strLe (match_skills resume_skills jd_skills).matched_skills
    ∧ List.Sorted strLe (match_skills resume_skills jd_skills).missing_skills :=
  ⟨List.sorted_insertionSort strLe _, List.sorted_insertionSort strLe _⟩

/-- Claim C8: with an empty resume-skill list and a non-empty required list,
`match_skills` returns score `0`, an empty matched list, and a missing list
equal to the full required set — the required entries whose normalization is
not the null sentinel, each occurrence kept, sorted. -/
theorem empty_resume_all_missing (jd_skills : List Str) (h : jd_skills ≠ []) :
    (match_skills [] jd_skills).score_percentage = 0
    ∧ (match_skills [] jd_skills).matched_skills = []
    ∧ (match_skills [] jd_skills).missing_skills
        = List.insertionSort strLe
            (jd_skills.filter (fun s => !(normalize_skill s == nullStr))) := by
  refine ⟨score_nil_resume jd_skills, ?_, ?_⟩
  · show List.insertionSort strLe (matched_original [] jd_skills) = []
    rw [matched_original_nil_resume]
    rfl
  · show List.insertionSort strLe (missing_original [] jd_skills) = _
    rw [missing_original_nil_resume]

/-- Witness for C8 at the non-empty required list `["Go"]`. -/
theorem empty_resume_all_missing_witness :
    (match_skills [] [ofStr "Go"]).score_percentage = 0
    ∧ (match_skills [] [ofStr "Go"]).matched_skills = []
    ∧ (match_skills [] [ofStr "Go"]).missing_skills
        = List.insertionSort strLe
            ([ofStr "Go"].filter (fun s => !(normalize_skill s == nullStr))) :=
  empty_resume_all_missing [ofStr "Go"] (by decide)

/-- Claim C9: `normalize_skill` is a pure total function that lower-cases,
trims, and collapses internal whitespace runs to single spaces, and it is
idempotent: `normalize(normalize(s)) = normalize(s)` for all strings. -/
theorem normalize_skill_idempotent (s : Str) :
    normalize_skill (normalize_skill s) = normalize_skill s
    ∧ normalize_skill (ofStr "  Foo   BAR ") = ofStr "foo bar" := by
  obtain ⟨h1, h2, h3⟩ := normalize_skill_fixed_parts s
  constructor
  · conv_lhs => rw [normalize_skill]
    rw [h1, h2, h3]
  · decide

/-- Claim C10: only the `"null"` sentinel is excluded from matching — an
entry normalizing to the empty string counts as an ordinary skill, so
`match([" "], ["  "])` has one required skill, one match, and score `100`. -/
theorem empty_normalization_counted :
    (match_skills [ofStr " "] [ofStr "  "]).total_skills_count = 1
    ∧ (match_skills [ofStr " "] [ofStr "  "]).matched_count = 1
    ∧ (match_skills [ofStr " "] [ofStr "  "]).score_percentage = 100 := by
  refine ⟨by decide, by decide, ?_⟩
  have hj : (jd_norm [ofStr "  "]).card = 1 := by decide
  have hm : (matched_norm [ofStr " "] [ofStr "  "]).card = 1 := by decide
  simp only [match_skills, hj, hm]
  have hf : ⌊(1 : ℚ) / 1 * 100 * 10⌋ = 1000 := by
    rw [Int.floor_eq_iff]
    norm_num
  norm_num [pyRound1, pyRound, hf]

end CareerFit
